import Mathlib

/-!
Verification of the escape-time fractal engine in src/mandel-julia/interactive.py.

The numeric model uses exact rational arithmetic: a complex number is a pair
of rationals, and the escape test np.abs(Z) <= 2 is modelled as the equivalent
squared-modulus test absSq z <= 4 (for nonnegative moduli, |z| <= 2 iff |z|^2 <= 4).
Arrays are lists of lists, row-major as numpy holds them: entry [j][i] is row j
(the y index), column i (the x index).
-/

/-- A complex number with rational real and imaginary parts. -/
structure QC where
  re : ℚ
  im : ℚ
deriving DecidableEq, Repr

/-- Complex addition. -/
def QC.add (a b : QC) : QC := ⟨a.re + b.re, a.im + b.im⟩

/-- Complex multiplication. -/
def QC.mul (a b : QC) : QC := ⟨a.re * b.re - a.im * b.im, a.re * b.im + a.im * b.re⟩

/-- Squared modulus: absSq z = |z|^2.  The source's escape test np.abs(Z) <= 2
is modelled as absSq z <= 4, which is equivalent in exact arithmetic. -/
def QC.absSq (a : QC) : ℚ := a.re * a.re + a.im * a.im

/-- np.linspace start stop num with endpoint=True (the source always calls it
this way): num samples; one sample is [start]; otherwise sample k is
start + k*(stop-start)/(num-1), so the last sample equals stop exactly. -/
def linspace (start stop : ℚ) (num : ℕ) : List ℚ :=
  if num = 1 then [start]
  else (List.range num).map (fun (k : ℕ) => start + (k : ℚ) * (stop - start) / ((num : ℚ) - 1))

/-- Lines 9-12 of generate_julia_set: x = linspace(xmin,xmax,width),
y = linspace(ymin,ymax,height), X, Y = meshgrid(x, y) (shape height x width),
Z = X + 1j*Y, i.e. Z[j][i] = x[i] + y[j]*1j. -/
def complexGrid (xmin xmax ymin ymax : ℚ) (width height : ℕ) : List (List QC) :=
  (linspace ymin ymax height).map (fun y => (linspace xmin xmax width).map (fun x => ⟨x, y⟩))

/-- One masked pass of the Julia loop at a single pixel, state (Z, julia):
if |Z| <= 2 then Z := Z^2 + c and julia += 1, else the pixel is left untouched. -/
def juliaStep (c : QC) (s : QC × ℕ) : QC × ℕ :=
  if s.1.absSq ≤ 4 then ((s.1.mul s.1).add c, s.2 + 1) else s

/-- The per-pixel state after m passes of the Julia loop, starting from the
grid coordinate z0 with count 0. -/
def juliaPixel (c : QC) (m : ℕ) (z0 : QC) : QC × ℕ :=
  (juliaStep c)^[m] (z0, 0)

/-- generate_julia_set(c, xmin, xmax, ymin, ymax, width, height, max_iter):
builds the complex grid, runs the masked loop for range(max_iter) passes
(so a nonpositive max_iter runs zero passes, as Python's range does), and
returns the integer count array of the same shape. -/
def generate_julia_set (c : QC) (xmin xmax ymin ymax : ℚ) (width height : ℕ)
    (max_iter : ℤ) : List (List ℕ) :=
  (complexGrid xmin xmax ymin ymax width height).map
    (fun row => row.map (fun z0 => (juliaPixel c max_iter.toNat z0).2))

/-- One masked pass, index i, of the Mandelbrot loop at a single pixel,
state (z, stable): if |z| <= 2 then z := z^2 + c and stable := i, else frozen. -/
def mandelStep (c : QC) (s : QC × ℕ) (i : ℕ) : QC × ℕ :=
  if s.1.absSq ≤ 4 then ((s.1.mul s.1).add c, i) else s

/-- The per-pixel state after the Mandelbrot loop for i in range(iters),
starting from z = 0, stable = 0. -/
def mandelPixel (c : QC) (iters : ℕ) : QC × ℕ :=
  (List.range iters).foldl (mandelStep c) (⟨0, 0⟩, 0)

/-- mandelbrot(c, iterations): z = zeros_like(c), stable = zeros(c.shape);
for i in range(iterations): mask = abs(z) <= 2; z[mask] = z[mask]**2 + c[mask];
stable[mask] = i; return stable.  A nonpositive iteration count runs zero
passes (Python range). -/
def mandelbrot (cgrid : List (List QC)) (iterations : ℤ) : List (List ℕ) :=
  cgrid.map (fun row => row.map (fun c => (mandelPixel c iterations.toNat).2))

/-- Python's int() applied to a real value: truncation toward zero. -/
def pytrunc (q : ℚ) : ℤ := if 0 ≤ q then ⌊q⌋ else ⌈q⌉

/-- complex_matrix(xmin, xmax, ymin, ymax, pixel_density):
re = linspace(xmin, xmax, int((xmax-xmin)*pixel_density)),
im = linspace(ymin, ymax, int((ymax-ymin)*pixel_density)),
return re[newaxis,:] + im[:,newaxis]*1j  (shape nim x nre, entry [j][i] =
re[i] + im[j]*1j).  np.linspace raises ValueError when its sample count is
negative, modelled as none; a zero count yields an empty axis. -/
def complex_matrix (xmin xmax ymin ymax density : ℚ) : Option (List (List QC)) :=
  let nre : ℤ := pytrunc ((xmax - xmin) * density)
  let nim : ℤ := pytrunc ((ymax - ymin) * density)
  if nre < 0 ∨ nim < 0 then none
  else some ((linspace ymin ymax nim.toNat).map
    (fun y => (linspace xmin xmax nre.toNat).map (fun x => ⟨x, y⟩)))

/-- The InteractiveJulia controller state: self.dragging, the control point
(self.control_x, self.control_y), plus a counter of how many times
self.update() (the synchronous Julia recompute) has been invoked. -/
structure DragState where
  dragging : Bool
  control_x : ℚ
  control_y : ℚ
  recomputes : ℕ
deriving DecidableEq, Repr

/-- A pointer event as delivered by the host: coordinates in domain units and
whether the event occurred inside the interactive axes region
(event.inaxes == self.ax2 in the source). -/
inductive PointerEvent where
  | press (x y : ℚ) (inside : Bool)
  | move (x y : ℚ) (inside : Bool)
  | release
deriving DecidableEq, Repr

/-- The controller's event handlers (on_press / on_release / on_move):
on_press returns early unless the event is inside ax2, else sets dragging;
on_release clears dragging unconditionally; on_move, only when dragging and
inside ax2, stores the event coordinates as the control point and invokes
update() exactly once. -/
def handleEvent (s : DragState) (e : PointerEvent) : DragState :=
  match e with
  | .press _ _ inside => if inside then { s with dragging := true } else s
  | .release => { s with dragging := false }
  | .move x y inside =>
      if s.dragging && inside then
        { s with control_x := x, control_y := y, recomputes := s.recomputes + 1 }
      else s

/-- Entry [j][i] of an iteration field, defaulting to 0 out of range. -/
def cellN (f : List (List ℕ)) (j i : ℕ) : ℕ := (f.getD j []).getD i 0

/-- Entry [j][i] of a complex grid, defaulting to 0 out of range. -/
def cellC (g : List (List QC)) (j i : ℕ) : QC := (g.getD j []).getD i ⟨0, 0⟩

/-- The number of loop passes k < m at whose start the pixel's z value still
satisfied the mask |z| <= 2 (the spec's counting convention for Julia). -/
def boundedSteps (c : QC) (m : ℕ) (z0 : QC) : ℕ :=
  ((List.range m).filter (fun k => decide ((juliaPixel c k z0).1.absSq ≤ 4))).length

/-! ### Basic facts about rational complex numbers -/

theorem QC.absSq_nonneg (a : QC) : 0 ≤ a.absSq := by
  have h1 : 0 ≤ a.re * a.re := mul_self_nonneg _
  have h2 : 0 ≤ a.im * a.im := mul_self_nonneg _
  unfold QC.absSq
  linarith

theorem QC.add_zero (a : QC) : a.add ⟨0, 0⟩ = a := by
  simp [QC.add]

theorem QC.absSq_mul_self (a : QC) : (a.mul a).absSq = a.absSq * a.absSq := by
  unfold QC.mul QC.absSq
  dsimp
  ring

/-! ### List access helpers -/

theorem getD_lt {α : Type} (l : List α) (n : ℕ) (d : α) (h : n < l.length) :
    l.getD n d = l[n] := by
  simp [List.getD_eq_getElem?_getD, List.getElem?_eq_getElem h]

theorem getD_ge {α : Type} (l : List α) (n : ℕ) (d : α) (h : l.length ≤ n) :
    l.getD n d = d := by
  simp [List.getD_eq_getElem?_getD, List.getElem?_eq_none h]

theorem getD_map_lt {α β : Type} (l : List α) (f : α → β) (n : ℕ) (d : β) (d' : α)
    (h : n < l.length) : (l.map f).getD n d = f (l.getD n d') := by
  have h' : n < (l.map f).length := by simpa using h
  rw [getD_lt _ _ _ h', getD_lt _ _ _ h, List.getElem_map]

/-! ### linspace -/

theorem linspace_length (a b : ℚ) (n : ℕ) : (linspace a b n).length = n := by
  unfold linspace
  split
  · simp [*]
  · rw [List.length_map, List.length_range]

theorem linspace_getD (a b : ℚ) (n k : ℕ) (h2 : 2 ≤ n) (hk : k < n) :
    (linspace a b n).getD k 0 = a + (k : ℚ) * (b - a) / ((n : ℚ) - 1) := by
  have hn1 : n ≠ 1 := by omega
  have hlen : k < ((List.range n).map
      (fun (j : ℕ) => a + (j : ℚ) * (b - a) / ((n : ℚ) - 1))).length := by
    rw [List.length_map, List.length_range]
    exact hk
  unfold linspace
  rw [if_neg hn1, getD_lt _ _ _ hlen, List.getElem_map, List.getElem_range]

theorem linspace_getD_zero (a b : ℚ) (n : ℕ) (h : 0 < n) :
    (linspace a b n).getD 0 0 = a := by
  rcases Nat.lt_or_ge n 2 with h2 | h2
  · have hn : n = 1 := by omega
    subst hn
    simp [linspace]
  · rw [linspace_getD a b n 0 h2 (by omega)]
    simp

theorem linspace_getD_last (a b : ℚ) (n : ℕ) (h2 : 2 ≤ n) :
    (linspace a b n).getD (n - 1) 0 = b := by
  rw [linspace_getD a b n (n - 1) h2 (by omega)]
  have hne : ((n : ℚ) - 1) ≠ 0 := by
    have : (2 : ℚ) ≤ (n : ℚ) := by exact_mod_cast h2
    linarith
  have hcast : ((n - 1 : ℕ) : ℚ) = (n : ℚ) - 1 := by
    have h1 : (1 : ℕ) ≤ n := by omega
    push_cast [h1]
    ring
  rw [hcast]
  field_simp

theorem linspace_strictMono (a b : ℚ) (n k l : ℕ) (hab : a < b) (h2 : 2 ≤ n)
    (hkl : k < l) (hl : l < n) :
    (linspace a b n).getD k 0 < (linspace a b n).getD l 0 := by
  rw [linspace_getD a b n k h2 (by omega), linspace_getD a b n l h2 hl]
  have hpos : 0 < (b - a) / ((n : ℚ) - 1) := by
    apply div_pos (by linarith)
    have : (2 : ℚ) ≤ (n : ℚ) := by exact_mod_cast h2
    linarith
  have hkl' : (k : ℚ) < (l : ℚ) := by exact_mod_cast hkl
  have hmul := mul_lt_mul_of_pos_right hkl' hpos
  rw [mul_div_assoc, mul_div_assoc]
  linarith

/-! ### Grid and field cell access -/

theorem complexGrid_length (xmin xmax ymin ymax : ℚ) (w h : ℕ) :
    (complexGrid xmin xmax ymin ymax w h).length = h := by
  unfold complexGrid
  rw [List.length_map, linspace_length]

theorem complexGrid_row_length (xmin xmax ymin ymax : ℚ) (w h j : ℕ) (hj : j < h) :
    ((complexGrid xmin xmax ymin ymax w h).getD j []).length = w := by
  unfold complexGrid
  have hj' : j < (linspace ymin ymax h).length := by rw [linspace_length]; exact hj
  rw [getD_map_lt _ _ _ _ 0 hj', List.length_map, linspace_length]

theorem cellC_complexGrid (xmin xmax ymin ymax : ℚ) (w h j i : ℕ)
    (hj : j < h) (hi : i < w) :
    cellC (complexGrid xmin xmax ymin ymax w h) j i =
      ⟨(linspace xmin xmax w).getD i 0, (linspace ymin ymax h).getD j 0⟩ := by
  unfold cellC complexGrid
  have hj' : j < (linspace ymin ymax h).length := by rw [linspace_length]; exact hj
  have hi' : i < (linspace xmin xmax w).length := by rw [linspace_length]; exact hi
  rw [getD_map_lt _ _ _ _ 0 hj', getD_map_lt _ _ _ _ 0 hi']

theorem cellN_matrix_map (g : List (List QC)) (f : QC → ℕ) (j i : ℕ)
    (hj : j < g.length) (hi : i < (g.getD j []).length) :
    cellN (g.map (fun row => row.map f)) j i = f (cellC g j i) := by
  unfold cellN cellC
  rw [getD_map_lt g _ j [] [] hj, getD_map_lt _ f i 0 ⟨0, 0⟩ hi]

theorem cellN_matrix_map_oob (g : List (List QC)) (f : QC → ℕ) (j i : ℕ)
    (h : ¬(j < g.length ∧ i < (g.getD j []).length)) :
    cellN (g.map (fun row => row.map f)) j i = 0 := by
  unfold cellN
  by_cases hj : j < g.length
  · have hi : (g.getD j []).length ≤ i := by
      rcases Nat.lt_or_ge i (g.getD j []).length with hlt | hge
      · exact absurd ⟨hj, hlt⟩ h
      · exact hge
    have hi' : ((g.getD j []).map f).length ≤ i := by
      rw [List.length_map]
      exact hi
    rw [getD_map_lt g _ j [] [] hj, getD_ge _ _ _ hi']
  · have hj' : (g.map (fun row => row.map f)).length ≤ j := by
      rw [List.length_map]
      exact Nat.le_of_not_lt hj
    rw [getD_ge _ _ _ hj']
    rfl

/-! ### The Julia iteration at one pixel -/

theorem juliaPixel_zero_iter (c z0 : QC) : juliaPixel c 0 z0 = (z0, 0) := rfl

theorem juliaPixel_succ (c z0 : QC) (m : ℕ) :
    juliaPixel c (m + 1) z0 = juliaStep c (juliaPixel c m z0) :=
  Function.iterate_succ_apply' _ _ _

theorem juliaPixel_count (c z0 : QC) (m : ℕ) :
    (juliaPixel c m z0).2 = boundedSteps c m z0 := by
  induction m with
  | zero => rfl
  | succ m ih =>
    have hsplit : boundedSteps c (m + 1) z0 = boundedSteps c m z0 +
        (List.filter (fun k => decide ((juliaPixel c k z0).1.absSq ≤ 4)) [m]).length := by
      unfold boundedSteps
      rw [List.range_succ, List.filter_append, List.length_append]
    rw [juliaPixel_succ, hsplit]
    unfold juliaStep
    by_cases hb : (juliaPixel c m z0).1.absSq ≤ 4
    · rw [if_pos hb]
      have hsing : (List.filter (fun k => decide ((juliaPixel c k z0).1.absSq ≤ 4)) [m])
          = [m] := by simp [hb]
      rw [hsing]
      show (juliaPixel c m z0).2 + 1 = boundedSteps c m z0 + [m].length
      rw [ih]
      rfl
    · rw [if_neg hb]
      have hnil : (List.filter (fun k => decide ((juliaPixel c k z0).1.absSq ≤ 4)) [m])
          = [] := by simp [hb]
      rw [hnil]
      show (juliaPixel c m z0).2 = boundedSteps c m z0 + [].length
      rw [ih, List.length_nil, Nat.add_zero]

theorem boundedSteps_le (c z0 : QC) (m : ℕ) : boundedSteps c m z0 ≤ m := by
  unfold boundedSteps
  calc ((List.range m).filter _).length ≤ (List.range m).length :=
        List.length_filter_le _ _
    _ = m := List.length_range m

theorem boundedSteps_mono (c z0 : QC) (m1 m2 : ℕ) (h : m1 ≤ m2) :
    boundedSteps c m1 z0 ≤ boundedSteps c m2 z0 := by
  obtain ⟨d, rfl⟩ := Nat.exists_eq_add_of_le h
  unfold boundedSteps
  rw [List.range_add, List.filter_append, List.length_append]
  exact Nat.le_add_right _ _

theorem juliaPixel_count_le (c z0 : QC) (m : ℕ) : (juliaPixel c m z0).2 ≤ m := by
  rw [juliaPixel_count]
  exact boundedSteps_le c z0 m

theorem juliaPixel_count_mono (c z0 : QC) (m1 m2 : ℕ) (h : m1 ≤ m2) :
    (juliaPixel c m1 z0).2 ≤ (juliaPixel c m2 z0).2 := by
  rw [juliaPixel_count, juliaPixel_count]
  exact boundedSteps_mono c z0 m1 m2 h

theorem juliaStep_frozen (c : QC) (s : QC × ℕ) (h : ¬ s.1.absSq ≤ 4) :
    juliaStep c s = s := if_neg h

theorem juliaPixel_frozen (c z0 : QC) (m : ℕ) (h : ¬ z0.absSq ≤ 4) :
    juliaPixel c m z0 = (z0, 0) := by
  induction m with
  | zero => rfl
  | succ m ih =>
    rw [juliaPixel_succ, ih]
    exact juliaStep_frozen c (z0, 0) h

theorem juliaPixel_full_count (c z0 : QC) (m : ℕ)
    (h : ∀ k, k < m → (juliaPixel c k z0).1.absSq ≤ 4) :
    (juliaPixel c m z0).2 = m := by
  rw [juliaPixel_count]
  unfold boundedSteps
  rw [List.filter_eq_self.mpr ?hall, List.length_range]
  intro k hk
  rw [List.mem_range] at hk
  exact decide_eq_true (h k hk)

/-- With c = 0, a start value of squared modulus at most 1 stays bounded forever
and the count advances by one every pass. -/
theorem juliaIter_zero_c (m : ℕ) : ∀ (z : QC) (n : ℕ), z.absSq ≤ 1 →
    ((juliaStep ⟨0, 0⟩)^[m] (z, n)).2 = n + m ∧
      ((juliaStep ⟨0, 0⟩)^[m] (z, n)).1.absSq ≤ 1 := by
  induction m with
  | zero =>
    intro z n h
    exact ⟨rfl, h⟩
  | succ m ih =>
    intro z n h
    have hstep : juliaStep ⟨0, 0⟩ (z, n) = (z.mul z, n + 1) := by
      unfold juliaStep
      rw [if_pos (by dsimp only; linarith)]
      dsimp only
      rw [QC.add_zero]
    have hsq : (z.mul z).absSq ≤ 1 := by
      rw [QC.absSq_mul_self]
      have h0 := z.absSq_nonneg
      nlinarith
    rw [Function.iterate_succ_apply, hstep]
    obtain ⟨h1, h2⟩ := ih (z.mul z) (n + 1) hsq
    exact ⟨by omega, h2⟩

/-! ### The Mandelbrot iteration at one pixel -/

theorem mandelPixel_zero_iter (c : QC) : mandelPixel c 0 = (⟨0, 0⟩, 0) := rfl

theorem mandelPixel_succ (c : QC) (n : ℕ) :
    mandelPixel c (n + 1) = mandelStep c (mandelPixel c n) n := by
  unfold mandelPixel
  rw [List.range_succ, List.foldl_append]
  rfl

theorem mandelPixel_write (c : QC) (n : ℕ) (h : (mandelPixel c n).1.absSq ≤ 4) :
    (mandelPixel c (n + 1)).2 = n := by
  rw [mandelPixel_succ]
  unfold mandelStep
  rw [if_pos h]

theorem mandelStep_frozen (c : QC) (s : QC × ℕ) (i : ℕ) (h : ¬ s.1.absSq ≤ 4) :
    mandelStep c s i = s := if_neg h

theorem mandelPixel_frozen (c : QC) (n : ℕ) (h : ¬ (mandelPixel c n).1.absSq ≤ 4) :
    ∀ d, mandelPixel c (n + d) = mandelPixel c n := by
  intro d
  induction d with
  | zero => rfl
  | succ d ih =>
    have : n + (d + 1) = (n + d) + 1 := by omega
    rw [this, mandelPixel_succ, ih, mandelStep_frozen]
    exact h

theorem mandelPixel_never_escape (c : QC) (m : ℕ) (hm : 0 < m)
    (h : ∀ k, k < m → (mandelPixel c k).1.absSq ≤ 4) :
    (mandelPixel c m).2 = m - 1 := by
  obtain ⟨n, rfl⟩ : ∃ n, m = n + 1 := ⟨m - 1, by omega⟩
  rw [mandelPixel_write c n (h n (by omega))]
  omega

theorem mandelPixel_escape (c : QC) (m i : ℕ) (hi0 : 0 < i) (him : i ≤ m)
    (hb : ∀ k, k < i → (mandelPixel c k).1.absSq ≤ 4)
    (he : ¬ (mandelPixel c i).1.absSq ≤ 4) :
    (mandelPixel c m).2 = i - 1 := by
  have h1 : mandelPixel c m = mandelPixel c i := by
    obtain ⟨d, rfl⟩ := Nat.exists_eq_add_of_le him
    exact mandelPixel_frozen c i he d
  rw [h1]
  exact mandelPixel_never_escape c i hi0 hb

theorem mandelPixel_snd_le (c : QC) (n : ℕ) : (mandelPixel c (n + 1)).2 ≤ n := by
  induction n with
  | zero =>
    rw [mandelPixel_succ]
    unfold mandelStep
    split
    · exact Nat.le_refl 0
    · exact Nat.le_refl 0
  | succ n ih =>
    rw [mandelPixel_succ]
    unfold mandelStep
    split
    · exact Nat.le_refl (n + 1)
    · exact Nat.le_trans ih (by omega)

theorem mandelPixel_one (c : QC) : mandelPixel c 1 = (c, 0) := by
  have h1 : (1 : ℕ) = 0 + 1 := rfl
  rw [h1, mandelPixel_succ, mandelPixel_zero_iter]
  unfold mandelStep
  rw [if_pos (by norm_num [QC.absSq])]
  dsimp only
  have hc : (QC.mul ⟨0, 0⟩ ⟨0, 0⟩).add c = c := by
    unfold QC.mul QC.add
    dsimp only
    norm_num
  rw [hc]

theorem mandelPixel_bigc (c : QC) (m : ℕ) (hm : 0 < m) (hc : 4 < c.absSq) :
    (mandelPixel c m).2 = 0 := by
  obtain ⟨d, rfl⟩ : ∃ d, m = 1 + d := ⟨m - 1, by omega⟩
  have hfrozen : ¬ (mandelPixel c 1).1.absSq ≤ 4 := by
    rw [mandelPixel_one]
    dsimp only
    linarith
  rw [mandelPixel_frozen c 1 hfrozen d, mandelPixel_one]

theorem mandelPixel_zero_c_fst (k : ℕ) : (mandelPixel ⟨0, 0⟩ k).1 = ⟨0, 0⟩ := by
  induction k with
  | zero => rfl
  | succ k ih =>
    rw [mandelPixel_succ]
    unfold mandelStep
    rw [if_pos (by rw [ih]; norm_num [QC.absSq])]
    dsimp only
    rw [ih]
    unfold QC.mul QC.add
    dsimp only
    norm_num

/-! ### Claim theorems -/

/-- C1: for every grid, c and max_iter, the Julia variant returns at each pixel
a count equal to the number of loop passes at whose start the pixel's z
satisfied |z| <= 2 (inactive pixels stay frozen); a pixel whose orbit stays
bounded throughout ends with count = max_iter; on the 4x4 grid over
[-2,2]x[-2,2] with c = 0 and max_iter = 10, the pixel nearest the origin
(row 1, column 1, coordinate -2/3 - 2/3 i) reports 10 and the corner pixel
at (-2,-2) (row 0, column 0) reports 0. -/
theorem C1_julia_count_semantics :
    (∀ (c : QC) (xmin xmax ymin ymax : ℚ) (w h : ℕ) (m : ℤ) (j i : ℕ),
        j < h → i < w →
        cellN (generate_julia_set c xmin xmax ymin ymax w h m) j i =
          boundedSteps c m.toNat (cellC (complexGrid xmin xmax ymin ymax w h) j i)) ∧
    (∀ (c z0 : QC) (m : ℕ), (∀ k, k < m → (juliaPixel c k z0).1.absSq ≤ 4) →
        (juliaPixel c m z0).2 = m) ∧
    cellN (generate_julia_set ⟨0, 0⟩ (-2) 2 (-2) 2 4 4 10) 1 1 = 10 ∧
    cellN (generate_julia_set ⟨0, 0⟩ (-2) 2 (-2) 2 4 4 10) 0 0 = 0 := by
  refine ⟨?_, ?_, ?_, ?_⟩
  · intro c xmin xmax ymin ymax w h m j i hj hi
    have hj' : j < (complexGrid xmin xmax ymin ymax w h).length := by
      rw [complexGrid_length]
      exact hj
    have hi' : i < ((complexGrid xmin xmax ymin ymax w h).getD j []).length := by
      rw [complexGrid_row_length xmin xmax ymin ymax w h j hj]
      exact hi
    unfold generate_julia_set
    rw [cellN_matrix_map _ _ j i hj' hi', juliaPixel_count]
  · exact juliaPixel_full_count
  · have hj' : (1 : ℕ) < (complexGrid (-2) 2 (-2) 2 4 4).length := by
      rw [complexGrid_length]
      norm_num
    have hi' : (1 : ℕ) < ((complexGrid (-2) 2 (-2) 2 4 4).getD 1 []).length := by
      rw [complexGrid_row_length (-2) 2 (-2) 2 4 4 1 (by norm_num)]
      norm_num
    have hc : cellC (complexGrid (-2) 2 (-2) 2 4 4) 1 1 = ⟨-2/3, -2/3⟩ := by
      rw [cellC_complexGrid (-2) 2 (-2) 2 4 4 1 1 (by norm_num) (by norm_num)]
      rw [linspace_getD (-2) 2 4 1 (by norm_num) (by norm_num)]
      norm_num
    unfold generate_julia_set
    rw [cellN_matrix_map _ _ 1 1 hj' hi', hc]
    have h10 := juliaIter_zero_c 10 ⟨-2/3, -2/3⟩ 0 (by norm_num [QC.absSq])
    simpa [juliaPixel] using h10.1
  · have hj' : (0 : ℕ) < (complexGrid (-2) 2 (-2) 2 4 4).length := by
      rw [complexGrid_length]
      norm_num
    have hi' : (0 : ℕ) < ((complexGrid (-2) 2 (-2) 2 4 4).getD 0 []).length := by
      rw [complexGrid_row_length (-2) 2 (-2) 2 4 4 0 (by norm_num)]
      norm_num
    have hc : cellC (complexGrid (-2) 2 (-2) 2 4 4) 0 0 = ⟨-2, -2⟩ := by
      rw [cellC_complexGrid (-2) 2 (-2) 2 4 4 0 0 (by norm_num) (by norm_num)]
      rw [linspace_getD_zero (-2) 2 4 (by norm_num)]
    unfold generate_julia_set
    rw [cellN_matrix_map _ _ 0 0 hj' hi', hc]
    rw [juliaPixel_frozen ⟨0, 0⟩ ⟨-2, -2⟩ _ (by norm_num [QC.absSq])]

/-- C1 witness: the general characterization instantiated at a concrete
2x2 grid with c = i and max_iter = 3. -/
theorem C1_witness :
    cellN (generate_julia_set ⟨0, 1⟩ 0 1 0 1 2 2 3) 0 1 =
      boundedSteps ⟨0, 1⟩ (3 : ℤ).toNat (cellC (complexGrid 0 1 0 1 2 2) 0 1) :=
  C1_julia_count_semantics.1 ⟨0, 1⟩ 0 1 0 1 2 2 3 0 1 (by norm_num) (by norm_num)

/-- C2: the Mandelbrot variant starts each pixel at z = 0 and on each pass i
updates active pixels and overwrites stable := i; a never-escaping pixel ends
with stable = max_iter - 1; a pixel whose z first leaves modulus 2 at the
start of pass i (i > 0) ends with stable = i - 1; a pixel with |c| > 2 ends
with stable = 0; concretely c = 0 with max_iter = 50 yields 49 and c = 3
yields 0. -/
theorem C2_mandel_stable_semantics :
    (∀ (c : QC) (m : ℕ), 0 < m → (∀ k, k < m → (mandelPixel c k).1.absSq ≤ 4) →
        (mandelPixel c m).2 = m - 1) ∧
    (∀ (c : QC) (m i : ℕ), 0 < i → i ≤ m →
        (∀ k, k < i → (mandelPixel c k).1.absSq ≤ 4) →
        ¬ (mandelPixel c i).1.absSq ≤ 4 → (mandelPixel c m).2 = i - 1) ∧
    (∀ (c : QC) (m : ℕ), 0 < m → 4 < c.absSq → (mandelPixel c m).2 = 0) ∧
    mandelbrot [[⟨0, 0⟩, ⟨3, 0⟩]] 50 = [[49, 0]] := by
  refine ⟨mandelPixel_never_escape, mandelPixel_escape, mandelPixel_bigc, ?_⟩
  have h0 : (mandelPixel ⟨0, 0⟩ ((50 : ℤ)).toNat).2 = 49 := by
    have ht : ((50 : ℤ)).toNat = 50 := rfl
    rw [ht]
    exact mandelPixel_never_escape ⟨0, 0⟩ 50 (by norm_num)
      (fun k _ => by rw [mandelPixel_zero_c_fst]; norm_num [QC.absSq])
  have h3 : (mandelPixel ⟨3, 0⟩ ((50 : ℤ)).toNat).2 = 0 := by
    have ht : ((50 : ℤ)).toNat = 50 := rfl
    rw [ht]
    exact mandelPixel_bigc ⟨3, 0⟩ 50 (by norm_num) (by norm_num [QC.absSq])
  unfold mandelbrot
  rw [List.map_cons, List.map_nil, List.map_cons, List.map_cons, List.map_nil, h0, h3]

/-- C2 witness: a pixel with |c| > 2 ends with stable = 0, at c = 3, m = 2. -/
theorem C2_witness : (mandelPixel ⟨3, 0⟩ 2).2 = 0 :=
  C2_mandel_stable_semantics.2.2.1 ⟨3, 0⟩ 2 (by norm_num) (by norm_num [QC.absSq])

/-- C3 counterexample: the code performs no validation.  An inverted x-range
(xmin = 0 > xmax = -1/2) is not rejected by complex_matrix: the call succeeds
and returns a degenerate grid.  A call with max_iter = 0 (and more generally
any nonpositive budget) is not rejected either: both escape-time variants run
zero passes and return an all-zero field. -/
theorem C3_counterexample :
    complex_matrix 0 (-1/2) 0 1 1 = some [[]] ∧
    generate_julia_set ⟨0, 0⟩ (-2) 2 (-2) 2 2 2 0 = [[0, 0], [0, 0]] ∧
    mandelbrot [[⟨0, 0⟩]] 0 = [[0]] := by
  refine ⟨?_, ?_, rfl⟩
  · have h1 : pytrunc ((-1/2 - 0) * 1) = 0 := by
      unfold pytrunc
      rw [if_neg (by norm_num)]
      norm_num
    have h2 : pytrunc ((1 - 0) * 1) = 1 := by
      unfold pytrunc
      rw [if_pos (by norm_num)]
      norm_num
    simp only [complex_matrix]
    rw [h1, h2, if_neg (by norm_num)]
    rfl
  · unfold generate_julia_set
    norm_num [complexGrid, linspace, List.range_succ, juliaPixel]
    rfl

/-- C3 amended: none of the three validations exists in the code.  Building
the grid fails only when a derived numpy sample count int((max-min)*density)
is negative (np.linspace raises); inverted or otherwise invalid bounds whose
truncated sample counts are nonnegative build a grid without error, and a
nonpositive iteration budget is accepted by both variants (see C10). -/
theorem C3_amended_no_validation :
    ∀ xmin xmax ymin ymax density : ℚ,
      (complex_matrix xmin xmax ymin ymax density).isSome = true ↔
        (0 ≤ pytrunc ((xmax - xmin) * density) ∧
          0 ≤ pytrunc ((ymax - ymin) * density)) := by
  intro xmin xmax ymin ymax density
  simp only [complex_matrix]
  by_cases hc : pytrunc ((xmax - xmin) * density) < 0 ∨
      pytrunc ((ymax - ymin) * density) < 0
  · rw [if_pos hc]
    simp only [Option.isSome_none, Bool.false_eq_true, false_iff]
    omega
  · rw [if_neg hc]
    simp only [Option.isSome_some, true_iff]
    omega

/-- C4 counterexample: with the positive resolution width = height = 1 and the
valid region [0,1]x[0,1], the built grid is the single cell (xmin, ymin); its
top-right corner cell (row height-1, column width-1) is (0,0), not
(xmax, ymax) = (1,1), because one linspace sample is just [start]. -/
theorem C4_counterexample :
    complexGrid 0 1 0 1 1 1 = [[⟨0, 0⟩]] ∧
    cellC (complexGrid 0 1 0 1 1 1) 0 0 ≠ ⟨1, 1⟩ := by
  refine ⟨rfl, ?_⟩
  have h : cellC (complexGrid 0 1 0 1 1 1) 0 0 = ⟨0, 0⟩ := rfl
  rw [h]
  simp [QC.mk.injEq]

/-- C4 amended: for every valid region (xmin < xmax, ymin < ymax) and every
resolution with at least two samples per axis, the grid has height rows of
width cells each, cell [j][i] equals re[i] + im[j]*1j for the inclusive
linspaces, the corner cells equal (xmin, ymin) and (xmax, ymax) exactly, real
parts strictly increase along rows and imaginary parts strictly increase
along columns.  (For a one-sample axis the single sample is the minimum, so
the maximum corner is not attained; see the counterexample.) -/
theorem C4_amended_grid_geometry :
    ∀ (xmin xmax ymin ymax : ℚ) (w h : ℕ),
      xmin < xmax → ymin < ymax → 2 ≤ w → 2 ≤ h →
      ((complexGrid xmin xmax ymin ymax w h).length = h ∧
        (∀ row ∈ complexGrid xmin xmax ymin ymax w h, row.length = w)) ∧
      (∀ j i, j < h → i < w →
        cellC (complexGrid xmin xmax ymin ymax w h) j i =
          ⟨(linspace xmin xmax w).getD i 0, (linspace ymin ymax h).getD j 0⟩) ∧
      cellC (complexGrid xmin xmax ymin ymax w h) 0 0 = ⟨xmin, ymin⟩ ∧
      cellC (complexGrid xmin xmax ymin ymax w h) (h - 1) (w - 1) = ⟨xmax, ymax⟩ ∧
      (∀ j i1 i2, j < h → i1 < i2 → i2 < w →
        (cellC (complexGrid xmin xmax ymin ymax w h) j i1).re <
          (cellC (complexGrid xmin xmax ymin ymax w h) j i2).re) ∧
      (∀ j1 j2 i, i < w → j1 < j2 → j2 < h →
        (cellC (complexGrid xmin xmax ymin ymax w h) j1 i).im <
          (cellC (complexGrid xmin xmax ymin ymax w h) j2 i).im) := by
  intro xmin xmax ymin ymax w h hx hy hw hh
  refine ⟨⟨complexGrid_length xmin xmax ymin ymax w h, ?_⟩,
    fun j i hj hi => cellC_complexGrid xmin xmax ymin ymax w h j i hj hi, ?_, ?_, ?_, ?_⟩
  · intro row hrow
    unfold complexGrid at hrow
    rw [List.mem_map] at hrow
    obtain ⟨y, hy', rfl⟩ := hrow
    rw [List.length_map, linspace_length]
  · rw [cellC_complexGrid xmin xmax ymin ymax w h 0 0 (by omega) (by omega)]
    rw [linspace_getD_zero xmin xmax w (by omega), linspace_getD_zero ymin ymax h (by omega)]
  · rw [cellC_complexGrid xmin xmax ymin ymax w h (h - 1) (w - 1) (by omega) (by omega)]
    rw [linspace_getD_last xmin xmax w hw, linspace_getD_last ymin ymax h hh]
  · intro j i1 i2 hj hi12 hi2
    rw [cellC_complexGrid xmin xmax ymin ymax w h j i1 hj (by omega)]
    rw [cellC_complexGrid xmin xmax ymin ymax w h j i2 hj hi2]
    exact linspace_strictMono xmin xmax w i1 i2 hx hw hi12 hi2
  · intro j1 j2 i hi hj12 hj2
    rw [cellC_complexGrid xmin xmax ymin ymax w h j1 i (by omega) hi]
    rw [cellC_complexGrid xmin xmax ymin ymax w h j2 i hj2 hi]
    exact linspace_strictMono ymin ymax h j1 j2 hy hh hj12 hj2

/-- C4 witness: the amended grid geometry instantiated on the region
[0,1]x[0,2] at resolution 2x3. -/
theorem C4_witness :
    ((complexGrid 0 1 0 2 2 3).length = 3 ∧
      (∀ row ∈ complexGrid 0 1 0 2 2 3, row.length = 2)) ∧
    (∀ j i, j < 3 → i < 2 →
      cellC (complexGrid 0 1 0 2 2 3) j i =
        ⟨(linspace 0 1 2).getD i 0, (linspace 0 2 3).getD j 0⟩) ∧
    cellC (complexGrid 0 1 0 2 2 3) 0 0 = ⟨0, 0⟩ ∧
    cellC (complexGrid 0 1 0 2 2 3) (3 - 1) (2 - 1) = ⟨1, 2⟩ ∧
    (∀ j i1 i2, j < 3 → i1 < i2 → i2 < 2 →
      (cellC (complexGrid 0 1 0 2 2 3) j i1).re <
        (cellC (complexGrid 0 1 0 2 2 3) j i2).re) ∧
    (∀ j1 j2 i, i < 2 → j1 < j2 → j2 < 3 →
      (cellC (complexGrid 0 1 0 2 2 3) j1 i).im <
        (cellC (complexGrid 0 1 0 2 2 3) j2 i).im) :=
  C4_amended_grid_geometry 0 1 0 2 2 3 (by norm_num) (by norm_num)
    (by norm_num) (by norm_num)

/-- C5: every cell of a Julia field lies in [0, max_iter] and every cell of a
Mandelbrot field lies in [0, max_iter - 1] (counts are naturals, so the lower
bound 0 is inherent; the upper bounds hold at every index, in range or not). -/
theorem C5_field_ranges :
    (∀ (c : QC) (xmin xmax ymin ymax : ℚ) (w h : ℕ) (m : ℤ) (j i : ℕ),
        cellN (generate_julia_set c xmin xmax ymin ymax w h m) j i ≤ m.toNat) ∧
    (∀ (g : List (List QC)) (m : ℤ) (j i : ℕ), 0 < m →
        cellN (mandelbrot g m) j i ≤ m.toNat - 1) := by
  constructor
  · intro c xmin xmax ymin ymax w h m j i
    unfold generate_julia_set
    by_cases hin : j < (complexGrid xmin xmax ymin ymax w h).length ∧
        i < ((complexGrid xmin xmax ymin ymax w h).getD j []).length
    · rw [cellN_matrix_map _ _ j i hin.1 hin.2]
      exact juliaPixel_count_le _ _ _
    · rw [cellN_matrix_map_oob _ _ j i hin]
      exact Nat.zero_le _
  · intro g m j i hm
    have hpix : ∀ c : QC, (mandelPixel c m.toNat).2 ≤ m.toNat - 1 := by
      intro c
      obtain ⟨n, hn⟩ : ∃ n, m.toNat = n + 1 :=
        ⟨m.toNat - 1, by omega⟩
      rw [hn]
      have := mandelPixel_snd_le c n
      omega
    unfold mandelbrot
    by_cases hin : j < g.length ∧ i < (g.getD j []).length
    · rw [cellN_matrix_map _ _ j i hin.1 hin.2]
      exact hpix _
    · rw [cellN_matrix_map_oob _ _ j i hin]
      exact Nat.zero_le _

/-- C5 witness: the Mandelbrot bound instantiated on a 1x1 grid with budget 1. -/
theorem C5_witness : cellN (mandelbrot [[⟨0, 0⟩]] 1) 0 0 ≤ (1 : ℤ).toNat - 1 :=
  C5_field_ranges.2 [[⟨0, 0⟩]] 1 0 0 (by norm_num)

/-- C6 counterexample: the source derives the pixel resolution with Python's
int(), which truncates, not round().  For the region [0, 1.7]x[0,1] at density
1, the code builds 1 column (int(1.7) = 1) while the claim's formula
round(1.7) gives 2. -/
theorem C6_counterexample :
    complex_matrix 0 (17/10) 0 1 1 = some [[⟨0, 0⟩]] ∧
    ((([[(⟨0, 0⟩ : QC)]] : List (List QC)).getD 0 []).length : ℤ) ≠
      round ((17/10 - (0 : ℚ)) * 1) := by
  constructor
  · have h1 : pytrunc ((17/10 - 0) * 1) = 1 := by
      unfold pytrunc
      rw [if_pos (by norm_num)]
      norm_num
    have h2 : pytrunc ((1 - 0) * 1) = 1 := by
      unfold pytrunc
      rw [if_pos (by norm_num)]
      norm_num
    simp only [complex_matrix]
    rw [h1, h2, if_neg (by norm_num)]
    rfl
  · have hr : round ((17/10 - (0 : ℚ)) * 1) = 2 := by
      norm_num [round_eq]
    rw [hr]
    norm_num

/-- C6 amended: when a region is given with a pixel_density, the resolution is
derived as int((xmax-xmin)*density) columns by int((ymax-ymin)*density) rows,
truncating toward zero (Python int()), not rounding to nearest. -/
theorem C6_amended_trunc_resolution :
    ∀ (xmin xmax ymin ymax density : ℚ) (g : List (List QC)),
      complex_matrix xmin xmax ymin ymax density = some g →
      g.length = (pytrunc ((ymax - ymin) * density)).toNat ∧
      ∀ row ∈ g, row.length = (pytrunc ((xmax - xmin) * density)).toNat := by
  intro xmin xmax ymin ymax density g hg
  simp only [complex_matrix] at hg
  by_cases hc : pytrunc ((xmax - xmin) * density) < 0 ∨
      pytrunc ((ymax - ymin) * density) < 0
  · rw [if_pos hc] at hg
    exact absurd hg (by simp)
  · rw [if_neg hc] at hg
    have hXg := Option.some.inj hg
    subst hXg
    constructor
    · rw [List.length_map, linspace_length]
    · intro row hrow
      rw [List.mem_map] at hrow
      obtain ⟨y, hy, rfl⟩ := hrow
      rw [List.length_map, linspace_length]

/-- C6 witness: the truncated-resolution shape law instantiated on the unit
square at density 1, where the built grid is the single cell (0,0). -/
theorem C6_witness :
    ([[(⟨0, 0⟩ : QC)]] : List (List QC)).length =
        (pytrunc ((1 - 0) * 1)).toNat ∧
      ∀ row ∈ ([[(⟨0, 0⟩ : QC)]] : List (List QC)),
        row.length = (pytrunc ((1 - 0) * 1)).toNat :=
  C6_amended_trunc_resolution 0 1 0 1 1 [[⟨0, 0⟩]] (by
    have h1 : pytrunc ((1 - 0) * 1) = 1 := by
      unfold pytrunc
      rw [if_pos (by norm_num)]
      norm_num
    simp only [complex_matrix]
    rw [h1, if_neg (by norm_num)]
    rfl)

/-- C7: the controller is a state machine over dragging in {false, true}: a
press inside the region sets dragging without touching the control point or
triggering a recompute; a press outside is ignored; a move while dragging and
inside updates the control point to the event coordinates and triggers exactly
one recompute; a move outside, or while idle, is a no-op; release returns to
idle with no recompute.  The spec's concrete event trace behaves accordingly. -/
theorem C7_controller_state_machine :
    (∀ (s : DragState) (x y : ℚ),
        handleEvent s (.press x y true) = { s with dragging := true }) ∧
    (∀ (s : DragState) (x y : ℚ), handleEvent s (.press x y false) = s) ∧
    (∀ (s : DragState) (x y : ℚ), s.dragging = true →
        handleEvent s (.move x y true) = ⟨true, x, y, s.recomputes + 1⟩) ∧
    (∀ (s : DragState) (x y : ℚ) (b : Bool), s.dragging = false →
        handleEvent s (.move x y b) = s) ∧
    (∀ (s : DragState) (x y : ℚ), handleEvent s (.move x y false) = s) ∧
    (∀ s : DragState, handleEvent s .release = { s with dragging := false }) ∧
    List.foldl handleEvent ⟨false, 0, 0, 0⟩
      [.press (3/10) (4/10) true, .move (1/10) (-2/10) true, .release,
        .move (5/10) (5/10) true] = ⟨false, 1/10, -2/10, 1⟩ := by
  refine ⟨fun s x y => rfl, fun s x y => rfl, ?_, ?_, ?_, fun s => rfl, rfl⟩
  · intro s x y hd
    simp [handleEvent, hd]
  · intro s x y b hd
    simp [handleEvent, hd]
  · intro s x y
    simp [handleEvent]

/-- C7 witness: a move while dragging from a concrete state stores the event
coordinates and triggers exactly one recompute. -/
theorem C7_witness :
    handleEvent ⟨true, 0, 0, 5⟩ (.move 1 2 true) = ⟨true, 1, 2, 5 + 1⟩ :=
  C7_controller_state_machine.2.2.1 ⟨true, 0, 0, 5⟩ 1 2 rfl

/-- C8: holding the grid and c fixed, the Julia field computed with a larger
positive iteration budget is pointwise greater or equal: extra passes can only
extend a pixel's bounded run, never retract it. -/
theorem C8_julia_monotone_in_budget :
    ∀ (c : QC) (xmin xmax ymin ymax : ℚ) (w h : ℕ) (m1 m2 : ℤ) (j i : ℕ),
      0 < m1 → m1 ≤ m2 →
      cellN (generate_julia_set c xmin xmax ymin ymax w h m1) j i ≤
        cellN (generate_julia_set c xmin xmax ymin ymax w h m2) j i := by
  intro c xmin xmax ymin ymax w h m1 m2 j i hm1 hm12
  unfold generate_julia_set
  by_cases hin : j < (complexGrid xmin xmax ymin ymax w h).length ∧
      i < ((complexGrid xmin xmax ymin ymax w h).getD j []).length
  · rw [cellN_matrix_map _ _ j i hin.1 hin.2, cellN_matrix_map _ _ j i hin.1 hin.2]
    exact juliaPixel_count_mono _ _ _ _ (Int.toNat_le_toNat hm12)
  · rw [cellN_matrix_map_oob _ _ j i hin, cellN_matrix_map_oob _ _ j i hin]

/-- C8 witness: monotonicity at a concrete pixel with budgets 1 <= 2. -/
theorem C8_witness :
    cellN (generate_julia_set ⟨0, 0⟩ 0 1 0 1 2 2 1) 0 0 ≤
      cellN (generate_julia_set ⟨0, 0⟩ 0 1 0 1 2 2 2) 0 0 :=
  C8_julia_monotone_in_budget ⟨0, 0⟩ 0 1 0 1 2 2 1 2 0 0 (by norm_num) (by norm_num)

/-- C9: both escape-time variants are pure functions of their arguments: two
runs on equal inputs produce equal (hence bit-identical) output fields.  In
this embedding the source's in-place array writes touch only arrays freshly
allocated inside each call (Z and julia, z and stable), never the inputs, so
both variants are modelled as pure functions. -/
theorem C9_engine_deterministic :
    (∀ (c c' : QC) (xmin xmin' xmax xmax' ymin ymin' ymax ymax' : ℚ)
        (w w' h h' : ℕ) (m m' : ℤ),
        c = c' → xmin = xmin' → xmax = xmax' → ymin = ymin' → ymax = ymax' →
        w = w' → h = h' → m = m' →
        generate_julia_set c xmin xmax ymin ymax w h m =
          generate_julia_set c' xmin' xmax' ymin' ymax' w' h' m') ∧
    (∀ (g g' : List (List QC)) (m m' : ℤ), g = g' → m = m' →
        mandelbrot g m = mandelbrot g' m') := by
  constructor
  · intro c c' xmin xmin' xmax xmax' ymin ymin' ymax ymax' w w' h h' m m'
    intro h1 h2 h3 h4 h5 h6 h7 h8
    subst_vars
    rfl
  · intro g g' m m' h1 h2
    subst_vars
    rfl

/-- C9 witness: two runs of each variant on identical concrete inputs agree. -/
theorem C9_witness :
    generate_julia_set ⟨0, 0⟩ 0 1 0 1 2 2 3 =
      generate_julia_set ⟨0, 0⟩ 0 1 0 1 2 2 3 :=
  C9_engine_deterministic.1 ⟨0, 0⟩ ⟨0, 0⟩ 0 0 1 1 0 0 1 1 2 2 2 2 3 3
    rfl rfl rfl rfl rfl rfl rfl rfl

/-- C10: a nonpositive iteration budget makes Python's range empty, so both
variants return the zero-initialized field of the grid's shape without any
error: the Julia variant over its internally built grid, the Mandelbrot
variant over its c-grid argument. -/
theorem C10_nonpositive_budget_zero_field :
    (∀ (c : QC) (xmin xmax ymin ymax : ℚ) (w h : ℕ) (m : ℤ), m ≤ 0 →
        generate_julia_set c xmin xmax ymin ymax w h m =
          (complexGrid xmin xmax ymin ymax w h).map (fun row => row.map (fun _ => 0))) ∧
    (∀ (g : List (List QC)) (m : ℤ), m ≤ 0 →
        mandelbrot g m = g.map (fun row => row.map (fun _ => 0))) := by
  constructor
  · intro c xmin xmax ymin ymax w h m hm
    unfold generate_julia_set
    rw [Int.toNat_of_nonpos hm]
    rfl
  · intro g m hm
    unfold mandelbrot
    rw [Int.toNat_of_nonpos hm]
    rfl

/-- C10 witness: at budget -3, the Julia variant returns the all-zero field of
the 2x2 grid's shape. -/
theorem C10_witness :
    generate_julia_set ⟨0, 0⟩ (-2) 2 (-2) 2 2 2 (-3) =
      (complexGrid (-2) 2 (-2) 2 2 2).map (fun row => row.map (fun _ => 0)) :=
  C10_nonpositive_budget_zero_field.1 ⟨0, 0⟩ (-2) 2 (-2) 2 2 2 (-3) (by norm_num)
